import Mathlib

/-!
Shallow embedding of the moluscoyield program
(src/programs/moluscoyield/src/lib.rs) and verification of its
specification's claims.

Modelling conventions:
- `Pubkey` values are modelled as `Nat` (opaque identities compared for
  equality only).
- `u64` / `u16` values are modelled as `Nat`; the source's unchecked
  (`+=`, `-=`) arithmetic is release-build Rust semantics, i.e. wrapping
  modulo `2^64` / `2^16`, written explicitly with `% 2^64` / `% 2^16`.
- `i64` timestamps are modelled as `Int` and supplied as parameters
  (the `Clock::get()` collaborator is external per the spec).
- One vault per ledger: all claims are about operation sequences on one
  vault, and vaults never interact.
- Anchor account resolution is part of the source (`#[derive(Accounts)]`
  structs): a position account is addressed by its PDA seeds
  `(protocol, asset, position_count as u8)` (the vault key, constant
  here, is omitted from the seed tuple), `init` fails when the address
  is already in use, `close = owner` removes the account after the
  handler body runs, and `constraint = ...` clauses are checked in
  account-field order before the handler body.
-/

namespace Moluscoyield

/-- Error codes declared by the program's `#[error_code] enum MoluscoError`
(lib.rs 240-248). Note the program declares them but no handler ever
returns one. -/
inductive MoluscoError
  | InvalidApy
  | PositionClosed
  | InsufficientBalance
deriving DecidableEq

/-- Instruction-level failures: Anchor framework errors (constraint
violation, missing account, `init` collision) or a custom program error
(`MoluscoError`, available to handlers via `err!` but never emitted by
this program). -/
inductive StepError
  | constraintViolation
  | accountNotFound
  | accountAlreadyInUse
  | molusco (e : MoluscoError)
deriving DecidableEq

/-- The `Vault` account (lib.rs 188-197). -/
structure Vault where
  owner : Nat
  agent_name : String
  total_value_locked : Nat
  position_count : Nat
  created_at : Int
  last_rebalance : Int
  bump : Nat
deriving DecidableEq

/-- The `Position` account (lib.rs 209-223). -/
structure Position where
  owner : Nat
  vault : Nat
  protocol : String
  strategy : String
  asset : String
  amount : Nat
  target_apy : Nat
  opened_at : Int
  last_update : Int
  is_active : Bool
  accumulated_yield : Nat
  bump : Nat
deriving DecidableEq

/-- Position PDA address within one vault: the seed tuple
`(protocol, asset, position_count as u8)` from lib.rs 130-136 (the
constant `b"position"` tag and the fixed vault key are dropped). PDA
derivation is injective on seeds (standard modelling assumption). -/
def Addr : Type := String × String × Nat
deriving DecidableEq

/-- Wrapping `u64` addition (release-build `+=` on `u64`). -/
def wadd64 (a b : Nat) : Nat := (a + b) % 2^64

/-- Wrapping `u64` subtraction (release-build `-=` on `u64`). -/
def wsub64 (a b : Nat) : Nat := (a % 2^64 + (2^64 - b % 2^64)) % 2^64

/-- Wrapping `u16` addition (release-build `+=` on `u16`). -/
def wadd16 (a b : Nat) : Nat := (a + b) % 2^16

/-- Wrapping `u16` subtraction (release-build `-=` on `u16`). -/
def wsub16 (a b : Nat) : Nat := (a % 2^16 + (2^16 - b % 2^16)) % 2^16

/-- State of one vault and its position accounts. `positions` is the
account store restricted to this vault's positions: Anchor `init` adds
an entry, `close = owner` removes it. -/
structure Ledger where
  vaultKey : Nat
  vault : Vault
  positions : List (Addr × Position)
deriving DecidableEq

/-- Result of a successful instruction: the new ledger, the `msg!` log
lines, and the handler's return payload — every handler in lib.rs has
type `Result<()>`, so the payload is `Unit`. -/
structure StepOut where
  ledger : Ledger
  logs : List String
  ret : Unit
deriving DecidableEq

/-- Decidable equality for instruction results, so concrete runs can be
settled by `decide`. -/
instance {ε α : Type} [DecidableEq ε] [DecidableEq α] : DecidableEq (Except ε α)
  | .ok x, .ok y =>
    if h : x = y then .isTrue (congrArg Except.ok h)
    else .isFalse (fun hc => h (Except.ok.inj hc))
  | .error x, .error y =>
    if h : x = y then .isTrue (congrArg Except.error h)
    else .isFalse (fun hc => h (Except.error.inj hc))
  | .ok _, .error _ => .isFalse (fun hc => Except.noConfusion hc)
  | .error _, .ok _ => .isFalse (fun hc => Except.noConfusion hc)

/-- Look up the position account stored at an address (first match). -/
def lookupPos : List (Addr × Position) → Addr → Option Position
  | [], _ => none
  | (k, q) :: rest, a => if k = a then some q else lookupPos rest a

/-- Remove the position account stored at an address (first match);
models Anchor `close = owner` reclaiming the account. -/
def removePos : List (Addr × Position) → Addr → List (Addr × Position)
  | [], _ => []
  | (k, q) :: rest, a => if k = a then rest else (k, q) :: removePos rest a

/-- Write back a mutated position account at its address (first match). -/
def setPos : List (Addr × Position) → Addr → Position → List (Addr × Position)
  | [], _, _ => []
  | (k, q) :: rest, a, p => if k = a then (a, p) :: rest else (k, q) :: setPos rest a p

/-- Handler body of `initialize_vault` (lib.rs 10-22): a fresh vault with
zeroed counters owned by the signer. -/
def initialize_vault (owner : Nat) (agent_name : String) (now : Int) (bump : Nat) : Vault :=
  { owner := owner
    agent_name := agent_name
    total_value_locked := 0
    position_count := 0
    created_at := now
    last_rebalance := 0
    bump := bump }

/-- A ledger holding one freshly initialized vault and no positions. -/
def initLedger (vaultKey owner : Nat) (agent_name : String) (now : Int) (bump : Nat) : Ledger :=
  { vaultKey := vaultKey
    vault := initialize_vault owner agent_name now bump
    positions := [] }

/-- Handler body of `update_position` (lib.rs 57-71): saturating-subtract
the principal from the observed value, add the delta to the accumulated
yield (unchecked `u64` add, wraps), refresh `last_update`. Returns the
mutated position and the `yield_earned` value used in the log line.
Lean's `Nat` subtraction is truncated, exactly `u64::saturating_sub` for
in-range inputs. -/
def update_position (position : Position) (current_value : Nat) (now : Int) :
    Position × Nat :=
  let yield_earned := current_value - position.amount
  ({ position with
      accumulated_yield := wadd64 position.accumulated_yield yield_earned
      last_update := now },
   yield_earned)

/-- Handler body of `close_position` (lib.rs 74-84): flip `is_active`,
decrement `position_count` and `total_value_locked` (unchecked `u16`/`u64`
subtractions, wrap). Returns the mutated vault and position. -/
def close_position (vault : Vault) (position : Position) : Vault × Position :=
  let position := { position with is_active := false }
  let vault := { vault with
      position_count := wsub16 vault.position_count 1
      total_value_locked := wsub64 vault.total_value_locked position.amount }
  (vault, position)

/-- The `open_position` instruction (lib.rs 25-54 with the `OpenPosition`
accounts struct, lib.rs 114-142): check `vault.owner == owner.key()`,
derive the position address from `(protocol, asset, position_count as u8)`,
fail if it is already in use, create the position, increment the vault
aggregates (unchecked, wrapping). -/
def stepOpen (l : Ledger) (caller : Nat) (protocol strategy asset : String)
    (amount target_apy : Nat) (now : Int) (bump : Nat) : Except StepError StepOut :=
  if l.vault.owner = caller then
    match lookupPos l.positions (protocol, asset, l.vault.position_count % 256) with
    | some _ => .error .accountAlreadyInUse
    | none =>
      let position : Position :=
        { owner := caller
          vault := l.vaultKey
          protocol := protocol
          strategy := strategy
          asset := asset
          amount := amount
          target_apy := target_apy
          opened_at := now
          last_update := now
          is_active := true
          accumulated_yield := 0
          bump := bump }
      let vault : Vault :=
        { l.vault with
            position_count := wadd16 l.vault.position_count 1
            total_value_locked := wadd64 l.vault.total_value_locked amount }
      .ok { ledger := { l with
              vault := vault
              positions := ((protocol, asset, l.vault.position_count % 256), position)
                :: l.positions }
            logs := ["Position opened: " ++ asset ++ " in " ++ protocol]
            ret := () }
  else .error .constraintViolation

/-- The `update_position` instruction (lib.rs 57-71 with the
`UpdatePosition` accounts struct, lib.rs 144-154): resolve the position
account, check `position.owner == owner.key()`, run the handler body.
The vault is not among the instruction's accounts. -/
def stepUpdate (l : Ledger) (addr : Addr) (caller : Nat) (current_value : Nat)
    (now : Int) : Except StepError StepOut :=
  match lookupPos l.positions addr with
  | none => .error .accountNotFound
  | some position =>
    if position.owner = caller then
      let res := update_position position current_value now
      .ok { ledger := { l with positions := setPos l.positions addr res.1 }
            logs := ["Position updated. Yield earned: " ++ toString res.2 ++ " lamports"]
            ret := () }
    else .error .constraintViolation

/-- The `close_position` instruction (lib.rs 74-84 with the
`ClosePosition` accounts struct, lib.rs 156-174): check
`vault.owner == owner.key()`, resolve the position, check
`position.owner == owner.key()` and `position.vault == vault.key()`,
run the handler body, then remove the position account
(`close = owner`). -/
def stepClose (l : Ledger) (addr : Addr) (caller : Nat) : Except StepError StepOut :=
  if l.vault.owner = caller then
    match lookupPos l.positions addr with
    | none => .error .accountNotFound
    | some position =>
      if position.owner = caller ∧ position.vault = l.vaultKey then
        .ok { ledger := { l with
                vault := (close_position l.vault position).1
                positions := removePos l.positions addr }
              logs := ["Position closed. Total yield: "
                ++ toString position.accumulated_yield ++ " lamports"]
              ret := () }
      else .error .constraintViolation
  else .error .constraintViolation

/-- The `record_rebalance` instruction (lib.rs 87-93 with the
`RecordRebalance` accounts struct, lib.rs 176-186). -/
def stepRebalance (l : Ledger) (caller : Nat) (now : Int) : Except StepError StepOut :=
  if l.vault.owner = caller then
    .ok { ledger := { l with vault := { l.vault with last_rebalance := now } }
          logs := ["Rebalance recorded at timestamp: " ++ toString now]
          ret := () }
  else .error .constraintViolation

/-- One instruction against the vault's ledger. -/
inductive Op
  | openPos (caller : Nat) (protocol strategy asset : String)
      (amount target_apy : Nat) (now : Int) (bump : Nat)
  | updatePos (addr : Addr) (caller : Nat) (current_value : Nat) (now : Int)
  | closePos (addr : Addr) (caller : Nat)
  | recordRebalance (caller : Nat) (now : Int)
deriving DecidableEq

/-- Dispatch an instruction. -/
def stepOp (l : Ledger) : Op → Except StepError StepOut
  | .openPos c p s a am apy now b => stepOpen l c p s a am apy now b
  | .updatePos a c v now => stepUpdate l a c v now
  | .closePos a c => stepClose l a c
  | .recordRebalance c now => stepRebalance l c now

/-- Apply an instruction: a failed instruction commits nothing (the
transaction is rolled back by the host). -/
def applyOp (l : Ledger) (op : Op) : Ledger :=
  match stepOp l op with
  | .ok out => out.ledger
  | .error _ => l

/-- Apply a sequence of instructions. -/
def runOps (l : Ledger) (ops : List Op) : Ledger := ops.foldl applyOp l

/-- Sum of `amount` over the currently-active stored positions. -/
def activeSum (ps : List (Addr × Position)) : Nat :=
  (ps.map fun e => if e.2.is_active then e.2.amount else 0).sum

/-- Number of currently-active stored positions. -/
def activeCount (ps : List (Addr × Position)) : Nat :=
  (ps.filter fun e => e.2.is_active).length

/-- The spec's vault invariant, stated modulo the integer widths the
program stores the aggregates in, together with the auxiliary fact that
every stored position account is active (closing removes the account). -/
def Inv (l : Ledger) : Prop :=
  l.vault.total_value_locked = activeSum l.positions % 2^64 ∧
  l.vault.position_count = activeCount l.positions % 2^16 ∧
  ∀ e ∈ l.positions, e.2.is_active = true

/-- A freshly initialized demo ledger: vault key 0, owner 1. -/
def demoLedger : Ledger := initLedger 0 1 "agent" 0 0

/-- Demo ledger after one successful `open_position`
(protocol "P", asset "A", amount 5). -/
def demoOpened : Ledger :=
  runOps demoLedger [Op.openPos 1 "P" "S" "A" 5 0 0 0]

/-- The position account stored in `demoOpened` at address `("P", "A", 0)`. -/
def demoP : Position :=
  { owner := 1
    vault := 0
    protocol := "P"
    strategy := "S"
    asset := "A"
    amount := 5
    target_apy := 0
    opened_at := 0
    last_update := 0
    is_active := true
    accumulated_yield := 0
    bump := 0 }

/-- Address of the first position opened in the demo ledger. -/
def demoAddr : Addr := ("P", "A", 0)

/-- Demo ledger after opening a position with principal 0 and then
updating it with observed value `v`: its accumulated yield is `v`. -/
def yieldLedger (v : Nat) : Ledger :=
  runOps demoLedger
    [Op.openPos 1 "P" "S" "A" 0 0 0 0, Op.updatePos demoAddr 1 v 0]

/-- A closed-position record (is_active = false) as `close_position`
leaves it just before Anchor reclaims the account. -/
def closedP : Position :=
  { owner := 1
    vault := 0
    protocol := "P"
    strategy := "S"
    asset := "A"
    amount := 100
    target_apy := 0
    opened_at := 0
    last_update := 0
    is_active := false
    accumulated_yield := 5
    bump := 0 }

/-- A ledger whose store holds the closed position `closedP`, to probe
the handlers' (absent) `is_active` guard. -/
def closedPLedger : Ledger :=
  { vaultKey := 0
    vault := initialize_vault 1 "agent" 0 0
    positions := [(demoAddr, closedP)] }

/-- Demo ledger after two large opens: amounts `2^63` (protocol "P1")
and `2^63 + 5` (protocol "P2"), so the stored `total_value_locked`
wrapped to 5. -/
def bigLedger : Ledger :=
  runOps demoLedger
    [Op.openPos 1 "P1" "S" "A" (2^63) 0 0 0,
     Op.openPos 1 "P2" "S" "A" (2^63 + 5) 0 0 0]

/-- A two-character protocol string distinct for each `i < 65536`. -/
def mkProto (i : Nat) : String :=
  String.mk [Char.ofNat (i / 256), Char.ofNat (i % 256)]

/-- Address derived by the `i`-th open in the `openN` run: slot index
`i % 256` (the count truncated to `u8`). -/
def slotKey (i : Nat) : Addr := (mkProto i, "A", i % 256)

/-- The `i`-th open instruction of the `openN` run: protocol `mkProto i`,
asset "A", amount 0. -/
def openNOp (i : Nat) : Op := Op.openPos 1 (mkProto i) "S" "A" 0 0 0 0

/-- The demo ledger after `n` opens with pairwise-distinct protocols. -/
def openN (n : Nat) : Ledger := runOps demoLedger ((List.range n).map openNOp)

/-- The list of addresses present in the position store. -/
def keysOf (ps : List (Addr × Position)) : List Addr := ps.map Prod.fst

/-- The position record that a successful `open_position` writes
(lib.rs 36-47), as a function of the instruction inputs. -/
def openedPosition (l : Ledger) (c : Nat) (p s a : String) (am apy : Nat)
    (now : Int) (b : Nat) : Position :=
  { owner := c
    vault := l.vaultKey
    protocol := p
    strategy := s
    asset := a
    amount := am
    target_apy := apy
    opened_at := now
    last_update := now
    is_active := true
    accumulated_yield := 0
    bump := b }

theorem lookupPos_eq_none (ps : List (Addr × Position)) (a : Addr)
    (h : a ∉ ps.map Prod.fst) : lookupPos ps a = none := by
  induction ps with
  | nil => rfl
  | cons e rest ih =>
    obtain ⟨k, q⟩ := e
    simp only [List.map_cons, List.mem_cons, not_or] at h
    simp only [lookupPos]
    rw [if_neg (fun hk => h.1 hk.symm)]
    exact ih h.2

theorem exists_lookupPos_of_mem (ps : List (Addr × Position)) (a : Addr)
    (h : a ∈ ps.map Prod.fst) : ∃ p, lookupPos ps a = some p := by
  induction ps with
  | nil => simp at h
  | cons e rest ih =>
    obtain ⟨k, q⟩ := e
    by_cases hk : k = a
    · exact ⟨q, by simp only [lookupPos]; rw [if_pos hk]⟩
    · simp only [List.map_cons, List.mem_cons] at h
      rcases h with h | h
      · exact absurd h.symm hk
      · obtain ⟨p, hp⟩ := ih h
        exact ⟨p, by simp only [lookupPos]; rw [if_neg hk]; exact hp⟩

theorem mem_of_lookupPos (ps : List (Addr × Position)) (a : Addr) (p : Position)
    (h : lookupPos ps a = some p) : (a, p) ∈ ps := by
  induction ps with
  | nil => simp [lookupPos] at h
  | cons e rest ih =>
    obtain ⟨k, q⟩ := e
    simp only [lookupPos] at h
    by_cases hk : k = a
    · rw [if_pos hk] at h
      injection h with h
      subst hk; subst h
      exact List.mem_cons_self _ _
    · rw [if_neg hk] at h
      exact List.mem_cons_of_mem _ (ih h)

theorem activeSum_cons (e : Addr × Position) (ps : List (Addr × Position)) :
    activeSum (e :: ps) = (if e.2.is_active then e.2.amount else 0) + activeSum ps := by
  simp [activeSum]

theorem activeCount_cons (e : Addr × Position) (ps : List (Addr × Position)) :
    activeCount (e :: ps) = (if e.2.is_active then 1 else 0) + activeCount ps := by
  simp only [activeCount, List.filter_cons]
  by_cases h : e.2.is_active <;> simp [h, Nat.add_comm]

theorem activeSum_removePos (ps : List (Addr × Position)) (a : Addr) (p : Position)
    (h : lookupPos ps a = some p) :
    activeSum ps = (if p.is_active then p.amount else 0) + activeSum (removePos ps a) := by
  induction ps with
  | nil => simp [lookupPos] at h
  | cons e rest ih =>
    obtain ⟨k, q⟩ := e
    simp only [lookupPos] at h
    by_cases hk : k = a
    · rw [if_pos hk] at h
      injection h with h; subst h
      simp only [removePos, if_pos hk]
      rw [activeSum_cons]
    · rw [if_neg hk] at h
      simp only [removePos, if_neg hk]
      rw [activeSum_cons, activeSum_cons, ih h]
      omega

theorem activeCount_removePos (ps : List (Addr × Position)) (a : Addr) (p : Position)
    (h : lookupPos ps a = some p) :
    activeCount ps = (if p.is_active then 1 else 0) + activeCount (removePos ps a) := by
  induction ps with
  | nil => simp [lookupPos] at h
  | cons e rest ih =>
    obtain ⟨k, q⟩ := e
    simp only [lookupPos] at h
    by_cases hk : k = a
    · rw [if_pos hk] at h
      injection h with h; subst h
      simp only [removePos, if_pos hk]
      rw [activeCount_cons]
    · rw [if_neg hk] at h
      simp only [removePos, if_neg hk]
      rw [activeCount_cons, activeCount_cons, ih h]
      omega

theorem mem_removePos (ps : List (Addr × Position)) (a : Addr) (e : Addr × Position)
    (h : e ∈ removePos ps a) : e ∈ ps := by
  induction ps with
  | nil => simp [removePos] at h
  | cons f rest ih =>
    obtain ⟨k, q⟩ := f
    simp only [removePos] at h
    by_cases hk : k = a
    · rw [if_pos hk] at h
      exact List.mem_cons_of_mem _ h
    · rw [if_neg hk] at h
      rcases List.mem_cons.mp h with h | h
      · exact h ▸ List.mem_cons_self _ _
      · exact List.mem_cons_of_mem _ (ih h)

theorem activeSum_setPos (ps : List (Addr × Position)) (a : Addr) (p q : Position)
    (h : lookupPos ps a = some q) (hact : p.is_active = q.is_active)
    (ham : p.amount = q.amount) :
    activeSum (setPos ps a p) = activeSum ps := by
  induction ps with
  | nil => simp [lookupPos] at h
  | cons e rest ih =>
    obtain ⟨k, r⟩ := e
    simp only [lookupPos] at h
    by_cases hk : k = a
    · rw [if_pos hk] at h
      injection h with h; subst h
      simp only [setPos, if_pos hk]
      rw [activeSum_cons, activeSum_cons]
      simp [hact, ham]
    · rw [if_neg hk] at h
      simp only [setPos, if_neg hk]
      rw [activeSum_cons, activeSum_cons, ih h]

theorem activeCount_setPos (ps : List (Addr × Position)) (a : Addr) (p q : Position)
    (h : lookupPos ps a = some q) (hact : p.is_active = q.is_active) :
    activeCount (setPos ps a p) = activeCount ps := by
  induction ps with
  | nil => simp [lookupPos] at h
  | cons e rest ih =>
    obtain ⟨k, r⟩ := e
    simp only [lookupPos] at h
    by_cases hk : k = a
    · rw [if_pos hk] at h
      injection h with h; subst h
      simp only [setPos, if_pos hk]
      rw [activeCount_cons, activeCount_cons]
      simp [hact]
    · rw [if_neg hk] at h
      simp only [setPos, if_neg hk]
      rw [activeCount_cons, activeCount_cons, ih h]

theorem mem_setPos (ps : List (Addr × Position)) (a : Addr) (p : Position)
    (e : Addr × Position) (h : e ∈ setPos ps a p) : e = (a, p) ∨ e ∈ ps := by
  induction ps with
  | nil => simp [setPos] at h
  | cons f rest ih =>
    obtain ⟨k, q⟩ := f
    simp only [setPos] at h
    by_cases hk : k = a
    · rw [if_pos hk] at h
      rcases List.mem_cons.mp h with h | h
      · exact Or.inl h
      · exact Or.inr (List.mem_cons_of_mem _ h)
    · rw [if_neg hk] at h
      rcases List.mem_cons.mp h with h | h
      · exact Or.inr (h ▸ List.mem_cons_self _ _)
      · rcases ih h with h | h
        · exact Or.inl h
        · exact Or.inr (List.mem_cons_of_mem _ h)

/-- The invariant is preserved by every instruction, successful or not. -/
theorem inv_applyOp (l : Ledger) (op : Op) (h : Inv l) : Inv (applyOp l op) := by
  obtain ⟨htvl, hcnt, hact⟩ := h
  cases op with
  | openPos c p s a am apy now b =>
    by_cases hown : l.vault.owner = c
    · cases hl : lookupPos l.positions (p, a, l.vault.position_count % 256) with
      | some q =>
        simp only [applyOp, stepOp, stepOpen, if_pos hown, hl]
        exact ⟨htvl, hcnt, hact⟩
      | none =>
        simp only [applyOp, stepOp, stepOpen, if_pos hown, hl]
        refine ⟨?_, ?_, ?_⟩
        · rw [activeSum_cons]
          simp only [wadd64, htvl]
          simp
          omega
        · rw [activeCount_cons]
          simp only [wadd16, hcnt]
          simp
          omega
        · intro e he
          rcases List.mem_cons.mp he with he | he
          · subst he; rfl
          · exact hact e he
    · simp only [applyOp, stepOp, stepOpen, if_neg hown]
      exact ⟨htvl, hcnt, hact⟩
  | updatePos a c v now =>
    cases hl : lookupPos l.positions a with
    | none =>
      simp only [applyOp, stepOp, stepUpdate, hl]
      exact ⟨htvl, hcnt, hact⟩
    | some q =>
      by_cases hqo : q.owner = c
      · simp only [applyOp, stepOp, stepUpdate, hl, if_pos hqo]
        have hq : q.is_active = true := hact (a, q) (mem_of_lookupPos _ _ _ hl)
        refine ⟨?_, ?_, ?_⟩
        · dsimp only
          rw [activeSum_setPos l.positions a (update_position q v now).1 q hl rfl rfl]
          exact htvl
        · dsimp only
          rw [activeCount_setPos l.positions a (update_position q v now).1 q hl rfl]
          exact hcnt
        · intro e he
          rcases mem_setPos _ _ _ _ he with he | he
          · subst he
            simpa [update_position] using hq
          · exact hact e he
      · simp only [applyOp, stepOp, stepUpdate, hl, if_neg hqo]
        exact ⟨htvl, hcnt, hact⟩
  | closePos a c =>
    by_cases hown : l.vault.owner = c
    · cases hl : lookupPos l.positions a with
      | none =>
        simp only [applyOp, stepOp, stepClose, if_pos hown, hl]
        exact ⟨htvl, hcnt, hact⟩
      | some q =>
        by_cases hcons : q.owner = c ∧ q.vault = l.vaultKey
        · simp only [applyOp, stepOp, stepClose, if_pos hown, hl, if_pos hcons]
          have hq : q.is_active = true := hact (a, q) (mem_of_lookupPos _ _ _ hl)
          refine ⟨?_, ?_, ?_⟩
          · have hs := activeSum_removePos l.positions a q hl
            rw [hq] at hs
            simp only [if_pos] at hs
            simp only [close_position, wsub64, htvl, hs]
            omega
          · have hs := activeCount_removePos l.positions a q hl
            rw [hq] at hs
            simp only [if_pos] at hs
            simp only [close_position, wsub16, hcnt, hs]
            omega
          · intro e he
            exact hact e (mem_removePos _ _ _ he)
        · simp only [applyOp, stepOp, stepClose, if_pos hown, hl, if_neg hcons]
          exact ⟨htvl, hcnt, hact⟩
    · simp only [applyOp, stepOp, stepClose, if_neg hown]
      exact ⟨htvl, hcnt, hact⟩
  | recordRebalance c now =>
    by_cases hown : l.vault.owner = c
    · simp only [applyOp, stepOp, stepRebalance, if_pos hown]
      exact ⟨htvl, hcnt, hact⟩
    · simp only [applyOp, stepOp, stepRebalance, if_neg hown]
      exact ⟨htvl, hcnt, hact⟩

/-- The invariant is preserved by every instruction sequence. -/
theorem inv_runOps (ops : List Op) (l : Ledger) (h : Inv l) : Inv (runOps l ops) := by
  induction ops generalizing l with
  | nil => exact h
  | cons op rest ih => exact ih (applyOp l op) (inv_applyOp l op h)

/-- The invariant holds for a freshly initialized vault. -/
theorem inv_init (vk ow : Nat) (nm : String) (t : Int) (b : Nat) :
    Inv (initLedger vk ow nm t b) := by
  unfold Inv initLedger initialize_vault activeSum activeCount
  simp

/-- C1 (amended): for every sequence of operations on one vault starting
from initialization, after each operation `total_value_locked` equals the
sum of `amount` over the currently-active positions reduced modulo `2^64`,
and `position_count` equals the number of currently-active positions
reduced modulo `2^16`. (Exact equality fails once the unchecked `u64`
aggregate arithmetic wraps; see the counterexample.) -/
theorem c1_aggregates (vk ow : Nat) (nm : String) (t : Int) (b : Nat) (ops : List Op) :
    (runOps (initLedger vk ow nm t b) ops).vault.total_value_locked
      = activeSum (runOps (initLedger vk ow nm t b) ops).positions % 2^64 ∧
    (runOps (initLedger vk ow nm t b) ops).vault.position_count
      = activeCount (runOps (initLedger vk ow nm t b) ops).positions % 2^16 := by
  have h := inv_runOps ops (initLedger vk ow nm t b) (inv_init vk ow nm t b)
  exact ⟨h.1, h.2.1⟩

/-- C1 counterexample: after the two-open sequence recorded in
`bigLedger` (amounts `2^63` and `2^63 + 5`), the stored
`total_value_locked` is 5 while the sum of `amount` over the active
positions is `2^64 + 5`, so the claimed exact equality is false. -/
theorem c1_cex :
    bigLedger.vault.total_value_locked = 5 ∧
    activeSum bigLedger.positions = 2^64 + 5 ∧
    bigLedger.vault.total_value_locked ≠ activeSum bigLedger.positions :=
  ⟨by decide, by decide, by decide⟩

/-- C3: for every position and `current_value`, `update_position` computes
`yield_delta` as the saturating (never negative) subtraction
`current_value - amount`, adds it to `accumulated_yield` (as a `u64`,
i.e. modulo `2^64`), sets `last_update` to the supplied current time and
leaves every other field of the position unchanged. -/
theorem c3_update (p : Position) (v : Nat) (now : Int) :
    (update_position p v now).2 = v - p.amount ∧
    (((update_position p v now).2 : Nat) : Int) = max 0 ((v : Int) - (p.amount : Int)) ∧
    (update_position p v now).1.accumulated_yield
      = (p.accumulated_yield + (v - p.amount)) % 2^64 ∧
    (update_position p v now).1.last_update = now ∧
    (update_position p v now).1.owner = p.owner ∧
    (update_position p v now).1.vault = p.vault ∧
    (update_position p v now).1.protocol = p.protocol ∧
    (update_position p v now).1.strategy = p.strategy ∧
    (update_position p v now).1.asset = p.asset ∧
    (update_position p v now).1.amount = p.amount ∧
    (update_position p v now).1.target_apy = p.target_apy ∧
    (update_position p v now).1.opened_at = p.opened_at ∧
    (update_position p v now).1.is_active = p.is_active ∧
    (update_position p v now).1.bump = p.bump := by
  refine ⟨rfl, ?_, rfl, rfl, rfl, rfl, rfl, rfl, rfl, rfl, rfl, rfl, rfl, rfl⟩
  show (((v - p.amount : Nat)) : Int) = max 0 ((v : Int) - (p.amount : Int))
  omega

/-- C6 counterexample: in the reachable ledger `yieldLedger (2^64 - 1)`
the position's accumulated yield is `2^64 - 1`; one more successful
update with observed value 1 wraps it to 0, a strict decrease, so
accumulated yield is not monotonically non-decreasing. -/
theorem c6_cex :
    (lookupPos (yieldLedger (2^64 - 1)).positions demoAddr).map Position.accumulated_yield
      = some (2^64 - 1) ∧
    (stepUpdate (yieldLedger (2^64 - 1)) demoAddr 1 1 0).map
      (fun o => (lookupPos o.ledger.positions demoAddr).map Position.accumulated_yield)
      = .ok (some 0) ∧
    ¬ (2^64 - 1 ≤ 0) :=
  ⟨by decide, by decide, by decide⟩

/-- C6 (amended): a successful `update_position` never decreases
`accumulated_yield`, provided the `u64` addition
`accumulated_yield + yield_delta` does not overflow. -/
theorem c6_monotone (p : Position) (v : Nat) (now : Int)
    (h : p.accumulated_yield + (v - p.amount) < 2^64) :
    p.accumulated_yield ≤ (update_position p v now).1.accumulated_yield := by
  show p.accumulated_yield ≤ wadd64 p.accumulated_yield (v - p.amount)
  unfold wadd64
  rw [Nat.mod_eq_of_lt h]
  omega

/-- Witness for C6 (amended) at a concrete input. -/
theorem c6_monotone_witness :
    demoP.accumulated_yield + (7 - demoP.amount) < 2^64 ∧
    demoP.accumulated_yield ≤ (update_position demoP 7 1).1.accumulated_yield :=
  ⟨by decide, c6_monotone demoP 7 1 (by decide)⟩

/-- C7: an `update_position` instruction leaves the parent vault (and the
vault key) entirely unchanged, whether it succeeds or fails; in
particular `total_value_locked` and `position_count` are not modified. -/
theorem c7_frame (l : Ledger) (a : Addr) (c v : Nat) (now : Int) :
    (applyOp l (Op.updatePos a c v now)).vault = l.vault ∧
    (applyOp l (Op.updatePos a c v now)).vaultKey = l.vaultKey := by
  cases hl : lookupPos l.positions a with
  | none => simp [applyOp, stepOp, stepUpdate, hl]
  | some q =>
    by_cases hq : q.owner = c
    · simp [applyOp, stepOp, stepUpdate, hl, if_pos hq]
    · simp [applyOp, stepOp, stepUpdate, hl, if_neg hq]

/-- C4: every mutating instruction issued by a caller different from the
owner recorded on the targeted vault (for open, close, rebalance) or
position (for update, close) fails with the owner-equality constraint
violation — the program's realization of `Unauthorized` — and leaves the
ledger unchanged. -/
theorem c4_unauthorized :
    (∀ (l : Ledger) (c : Nat) (p s a : String) (am apy : Nat) (now : Int) (b : Nat),
      c ≠ l.vault.owner →
      stepOpen l c p s a am apy now b = .error .constraintViolation ∧
      applyOp l (Op.openPos c p s a am apy now b) = l) ∧
    (∀ (l : Ledger) (a : Addr) (c v : Nat) (now : Int) (q : Position),
      lookupPos l.positions a = some q → c ≠ q.owner →
      stepUpdate l a c v now = .error .constraintViolation ∧
      applyOp l (Op.updatePos a c v now) = l) ∧
    (∀ (l : Ledger) (a : Addr) (c : Nat) (q : Position),
      lookupPos l.positions a = some q →
      (c ≠ l.vault.owner ∨ c ≠ q.owner) →
      stepClose l a c = .error .constraintViolation ∧
      applyOp l (Op.closePos a c) = l) ∧
    (∀ (l : Ledger) (c : Nat) (now : Int),
      c ≠ l.vault.owner →
      stepRebalance l c now = .error .constraintViolation ∧
      applyOp l (Op.recordRebalance c now) = l) := by
  refine ⟨?_, ?_, ?_, ?_⟩
  · intro l c p s a am apy now b h
    have hs : stepOpen l c p s a am apy now b = .error .constraintViolation := by
      simp only [stepOpen]
      rw [if_neg (fun he => h he.symm)]
    exact ⟨hs, by simp only [applyOp, stepOp, hs]⟩
  · intro l a c v now q hl h
    have hs : stepUpdate l a c v now = .error .constraintViolation := by
      simp only [stepUpdate, hl]
      rw [if_neg (fun he => h he.symm)]
    exact ⟨hs, by simp only [applyOp, stepOp, hs]⟩
  · intro l a c q hl h
    have hs : stepClose l a c = .error .constraintViolation := by
      by_cases hvo : l.vault.owner = c
      · have hqo : c ≠ q.owner := by
          rcases h with h | h
          · exact absurd hvo.symm h
          · exact h
        simp only [stepClose, if_pos hvo, hl]
        rw [if_neg (fun hand => hqo hand.1.symm)]
      · simp only [stepClose]
        rw [if_neg hvo]
    exact ⟨hs, by simp only [applyOp, stepOp, hs]⟩
  · intro l c now h
    have hs : stepRebalance l c now = .error .constraintViolation := by
      simp only [stepRebalance]
      rw [if_neg (fun he => h he.symm)]
    exact ⟨hs, by simp only [applyOp, stepOp, hs]⟩

/-- Witness for C4 at concrete inputs: caller 99 is rejected by all four
instructions on the demo ledger, which is left unchanged. -/
theorem c4_witness :
    (stepOpen demoOpened 99 "X" "S2" "A" 1 0 0 0 = .error .constraintViolation ∧
      applyOp demoOpened (Op.openPos 99 "X" "S2" "A" 1 0 0 0) = demoOpened) ∧
    (stepUpdate demoOpened demoAddr 99 10 0 = .error .constraintViolation ∧
      applyOp demoOpened (Op.updatePos demoAddr 99 10 0) = demoOpened) ∧
    (stepClose demoOpened demoAddr 99 = .error .constraintViolation ∧
      applyOp demoOpened (Op.closePos demoAddr 99) = demoOpened) ∧
    (stepRebalance demoOpened 99 0 = .error .constraintViolation ∧
      applyOp demoOpened (Op.recordRebalance 99 0) = demoOpened) :=
  ⟨c4_unauthorized.1 demoOpened 99 "X" "S2" "A" 1 0 0 0 (by decide),
   c4_unauthorized.2.1 demoOpened demoAddr 99 10 0 demoP (by decide) (by decide),
   c4_unauthorized.2.2.1 demoOpened demoAddr 99 demoP (by decide) (Or.inl (by decide)),
   c4_unauthorized.2.2.2 demoOpened 99 0 (by decide)⟩

/-- C2 is a code bug: the handlers have no `is_active` guard. The
`update_position` handler applied to a closed position (is_active =
false) succeeds and accrues yield instead of failing with
`PositionClosed`, and a second `close_position` on an already-closed
(hence reclaimed) position fails with the account-resolution error, not
`PositionClosed`; `MoluscoError::PositionClosed` is declared but never
returned. -/
theorem c2_no_guard :
    (update_position closedP 150 0).1.accumulated_yield = 55 ∧
    (update_position closedP 150 0).1.is_active = false ∧
    closedP.is_active = false ∧
    (stepUpdate closedPLedger demoAddr 1 150 0).map StepOut.ret = .ok () ∧
    stepClose (runOps demoLedger [Op.openPos 1 "P" "S" "A" 5 0 0 0, Op.closePos demoAddr 1])
      demoAddr 1 = .error .accountNotFound ∧
    (StepError.accountNotFound ≠ StepError.molusco MoluscoError.PositionClosed) :=
  ⟨by decide, by decide, by decide, by decide, by decide, by decide⟩

/-- C5 is a code bug: in the reachable ledger `bigLedger` the stored
`total_value_locked` is 5 while the position at slot 0 has amount `2^63`;
closing it succeeds with the vault total wrapped to `2^63 + 5` instead of
failing with `InsufficientBalance`, which is declared but never
returned. -/
theorem c5_no_guard :
    bigLedger.vault.total_value_locked = 5 ∧
    (lookupPos bigLedger.positions ("P1", "A", 0)).map Position.amount = some (2^63) ∧
    (stepClose bigLedger ("P1", "A", 0) 1).map (fun o => o.ledger.vault.total_value_locked)
      = .ok (2^63 + 5) ∧
    (stepClose bigLedger ("P1", "A", 0) 1).map StepOut.ret
      ≠ .error (.molusco .InsufficientBalance) :=
  ⟨by decide, by decide, by decide, by decide⟩

/-- C8 counterexample: open (slot 0), close, open again — the second open
derives the same slot index 0 and even the same address, so the slot
index is reused after a close (the first position there had amount 5, the
later one amount 7). -/
theorem c8_cex :
    (lookupPos demoOpened.positions demoAddr).map Position.amount = some 5 ∧
    (runOps demoLedger [Op.openPos 1 "P" "S" "A" 5 0 0 0,
        Op.closePos demoAddr 1]).vault.position_count = 0 ∧
    (lookupPos (runOps demoLedger [Op.openPos 1 "P" "S" "A" 5 0 0 0, Op.closePos demoAddr 1,
        Op.openPos 1 "P" "S" "A" 7 0 9 9]).positions demoAddr).map Position.amount = some 7 :=
  ⟨by decide, by decide, by decide⟩

/-- C8 (amended): the slot index used for a new position's address is the
vault's current `position_count` (truncated to `u8`); a successful open
increments the count and a successful close decrements it, so the index
is monotonically increasing and never reused only within close-free runs,
and is reused after a close. -/
theorem c8_slot_rule :
    (∀ (l : Ledger) (c : Nat) (p s a : String) (am apy : Nat) (now : Int) (b : Nat),
      l.vault.owner = c →
      lookupPos l.positions (p, a, l.vault.position_count % 256) = none →
      ∃ q, stepOpen l c p s a am apy now b = .ok
        { ledger := { l with
            vault := { l.vault with
              position_count := wadd16 l.vault.position_count 1
              total_value_locked := wadd64 l.vault.total_value_locked am }
            positions := ((p, a, l.vault.position_count % 256), q) :: l.positions }
          logs := ["Position opened: " ++ a ++ " in " ++ p]
          ret := () }) ∧
    (∀ (l : Ledger) (a : Addr) (c : Nat) (q : Position),
      l.vault.owner = c → lookupPos l.positions a = some q →
      q.owner = c → q.vault = l.vaultKey →
      (stepClose l a c).map (fun o => o.ledger.vault.position_count)
        = .ok (wsub16 l.vault.position_count 1)) := by
  constructor
  · intro l c p s a am apy now b ho hnone
    refine ⟨openedPosition l c p s a am apy now b, ?_⟩
    simp only [stepOpen, openedPosition, ho, if_pos, hnone]
  · intro l a c q ho hl hqo hqv
    simp only [stepClose, ho, if_pos, hl]
    rw [if_pos ⟨hqo, hqv⟩]
    rfl

/-- Witness for C8 (amended) at concrete inputs. -/
theorem c8_slot_rule_witness :
    (∃ q, stepOpen demoLedger 1 "P" "S" "A" 5 0 0 0 = .ok
      { ledger := { demoLedger with
          vault := { demoLedger.vault with
            position_count := wadd16 demoLedger.vault.position_count 1
            total_value_locked := wadd64 demoLedger.vault.total_value_locked 5 }
          positions := (("P", "A", demoLedger.vault.position_count % 256), q)
            :: demoLedger.positions }
        logs := ["Position opened: " ++ "A" ++ " in " ++ "P"]
        ret := () }) ∧
    (stepClose demoOpened demoAddr 1).map (fun o => o.ledger.vault.position_count)
      = .ok (wsub16 demoOpened.vault.position_count 1) :=
  ⟨c8_slot_rule.1 demoLedger 1 "P" "S" "A" 5 0 0 0 (by decide) (by decide),
   c8_slot_rule.2 demoOpened demoAddr 1 demoP (by decide) (by decide) (by decide) (by decide)⟩

/-- C9 counterexample: two closes of positions with different accumulated
yields (50000000 and 7) both return the same result value `Ok(())` — the
handler's result type is `Result<()>`, so the final accumulated yield is
not returned to the caller as the operation's result value. -/
theorem c9_cex :
    (lookupPos (yieldLedger 50000000).positions demoAddr).map Position.accumulated_yield
      = some 50000000 ∧
    (lookupPos (yieldLedger 7).positions demoAddr).map Position.accumulated_yield = some 7 ∧
    (stepClose (yieldLedger 50000000) demoAddr 1).map StepOut.ret = .ok () ∧
    (stepClose (yieldLedger 50000000) demoAddr 1).map StepOut.ret
      = (stepClose (yieldLedger 7) demoAddr 1).map StepOut.ret ∧
    (50000000 : Nat) ≠ 7 :=
  ⟨by decide, by decide, by decide, by decide, by decide⟩

/-- C9 (amended): for every active position owned by the caller,
`close_position` succeeds, the handler body sets `is_active` to false,
the final accumulated yield is emitted in the `msg!` log line, and the
operation's result value is `Ok(())` (unit, not the yield). -/
theorem c9_close_behavior (l : Ledger) (a : Addr) (c : Nat) (q : Position)
    (hvo : l.vault.owner = c) (hl : lookupPos l.positions a = some q)
    (hqo : q.owner = c) (hqv : q.vault = l.vaultKey) :
    stepClose l a c = .ok
      { ledger := { l with
          vault := (close_position l.vault q).1
          positions := removePos l.positions a }
        logs := ["Position closed. Total yield: "
          ++ toString q.accumulated_yield ++ " lamports"]
        ret := () } ∧
    (close_position l.vault q).2.is_active = false := by
  constructor
  · simp only [stepClose, hvo, if_pos, hl]
    rw [if_pos ⟨hqo, hqv⟩]
  · rfl

/-- Witness for C9 (amended) at a concrete input. -/
theorem c9_close_behavior_witness :
    stepClose demoOpened demoAddr 1 = .ok
      { ledger := { demoOpened with
          vault := (close_position demoOpened.vault demoP).1
          positions := removePos demoOpened.positions demoAddr }
        logs := ["Position closed. Total yield: "
          ++ toString demoP.accumulated_yield ++ " lamports"]
        ret := () } ∧
    (close_position demoOpened.vault demoP).2.is_active = false :=
  c9_close_behavior demoOpened demoAddr 1 demoP (by decide) (by decide) (by decide) (by decide)

set_option maxRecDepth 4096 in
/-- Characters built from byte values round-trip through `toNat`. -/
theorem charOfNat_toNat : ∀ n, n < 256 → (Char.ofNat n).toNat = n := by decide

/-- The two-character protocol strings are pairwise distinct below
`2^16`. -/
theorem mkProto_inj (i j : Nat) (hi : i < 65536) (hj : j < 65536)
    (h : mkProto i = mkProto j) : i = j := by
  unfold mkProto at h
  have hd := congrArg String.data h
  simp only [String.data] at hd
  simp at hd
  obtain ⟨h1, h2⟩ := hd
  have e1 := congrArg Char.toNat h1
  have e2 := congrArg Char.toNat h2
  rw [charOfNat_toNat _ (by omega), charOfNat_toNat _ (by omega)] at e1
  rw [charOfNat_toNat _ (by omega), charOfNat_toNat _ (by omega)] at e2
  omega

/-- Unfolding one step of the `openN` run. -/
theorem openN_succ (n : Nat) : openN (n + 1) = applyOp (openN n) (openNOp n) := by
  unfold openN runOps
  rw [List.range_succ, List.map_append, List.foldl_append]
  rfl

/-- Unfolding `keysOf` over a cons cell. -/
theorem keysOf_cons (e : Addr × Position) (ps : List (Addr × Position)) :
    keysOf (e :: ps) = e.1 :: keysOf ps := rfl

/-- The address derived by the `n`-th open is not among the earlier
ones. -/
theorem slotKey_notin_range (n : Nat) (hn : n < 65536) :
    (slotKey n) ∉ (List.range n).reverse.map slotKey := by
  intro hmem
  simp only [List.mem_map, List.mem_reverse, List.mem_range] at hmem
  obtain ⟨i, hi, hkey⟩ := hmem
  have hp : mkProto i = mkProto n := congrArg Prod.fst hkey
  have := mkProto_inj i n (by omega) hn hp
  omega

/-- Invariant of the `openN` run: all `n ≤ 2^16` opens succeed, the vault
count is `n % 2^16`, the stored addresses are exactly the derived slot
keys, and every stored position is owned by caller 1 with amount 0. -/
theorem openN_inv (n : Nat) (hn : n ≤ 65536) :
    (openN n).vaultKey = 0 ∧
    (openN n).vault.owner = 1 ∧
    (openN n).vault.position_count = n % 65536 ∧
    keysOf (openN n).positions = (List.range n).reverse.map slotKey ∧
    ∀ e ∈ (openN n).positions, e.2.owner = 1 ∧ e.2.vault = 0 ∧ e.2.amount = 0 := by
  induction n with
  | zero =>
    refine ⟨rfl, rfl, rfl, rfl, ?_⟩
    intro e he
    simp [openN, runOps, demoLedger, initLedger] at he
  | succ n ih =>
    obtain ⟨hk, ho, hc, hm, hfields⟩ := ih (by omega)
    have hn256 : n < 65536 := by omega
    have hnone : lookupPos (openN n).positions
        (mkProto n, "A", (openN n).vault.position_count % 256) = none := by
      apply lookupPos_eq_none
      have hmm : (openN n).positions.map Prod.fst
          = (List.range n).reverse.map slotKey := hm
      rw [hmm, hc, Nat.mod_mod_of_dvd n (by norm_num)]
      show (slotKey n) ∉ (List.range n).reverse.map slotKey
      exact slotKey_notin_range n hn256
    rw [openN_succ]
    simp only [applyOp, stepOp, openNOp, stepOpen, ho, if_pos, hnone]
    refine ⟨hk, trivial, ?_, ?_, ?_⟩
    · show wadd16 (openN n).vault.position_count 1 = (n + 1) % 65536
      rw [hc]
      unfold wadd16
      omega
    · rw [keysOf_cons]
      dsimp only
      rw [hc, Nat.mod_mod_of_dvd n (by norm_num), hm, List.range_succ]
      simp [slotKey]
    · intro e he
      rcases List.mem_cons.mp he with he | he
      · subst he
        exact ⟨rfl, hk, rfl⟩
      · exact hfields e he

/-- C10: the aggregate arithmetic is unchecked (release-build wrapping):
at reachable states, (i) an open whose `u64` addition
`total_value_locked + amount` overflows returns Ok with the wrapped total,
(ii) an update whose `u64` addition `accumulated_yield + yield_delta`
overflows returns Ok with the wrapped yield, (iii) a close whose `u64`
subtraction `total_value_locked - amount` underflows returns Ok with the
wrapped total, and (iv) after `2^16` opens the count is 0 and a close
wraps `position_count - 1` to `2^16 - 1`, returning Ok — never an error
value. -/
theorem c10_unchecked :
    ((runOps demoLedger [Op.openPos 1 "P1" "S" "A" (2^64 - 1) 0 0 0]).vault.total_value_locked
        = 2^64 - 1 ∧
      (stepOpen (runOps demoLedger [Op.openPos 1 "P1" "S" "A" (2^64 - 1) 0 0 0])
          1 "P2" "S2" "A" 2 0 0 0).map (fun o => o.ledger.vault.total_value_locked)
        = .ok 1 ∧ 2^64 ≤ (2^64 - 1) + 2) ∧
    ((lookupPos (yieldLedger (2^64 - 1)).positions demoAddr).map Position.accumulated_yield
      = some (2^64 - 1) ∧
      (stepUpdate (yieldLedger (2^64 - 1)) demoAddr 1 (2^64 - 1) 0).map
          (fun o => (lookupPos o.ledger.positions demoAddr).map Position.accumulated_yield)
        = .ok (some (2^64 - 2)) ∧ 2^64 ≤ (2^64 - 1) + (2^64 - 1)) ∧
    (bigLedger.vault.total_value_locked = 5 ∧
      (lookupPos bigLedger.positions ("P1", "A", 0)).map Position.amount = some (2^63) ∧
      (stepClose bigLedger ("P1", "A", 0) 1).map (fun o => o.ledger.vault.total_value_locked)
        = .ok (2^63 + 5) ∧ (5 : Nat) < 2^63) ∧
    ((openN 65536).vault.position_count = 0 ∧
      (stepClose (openN 65536) (slotKey 0) 1).map (fun o => o.ledger.vault.position_count)
        = .ok (2^16 - 1)) := by
  refine ⟨⟨by decide, by decide, by decide⟩, ⟨by decide, by decide, by decide⟩,
    ⟨by decide, by decide, by decide, by decide⟩, ?_, ?_⟩
  · have h := openN_inv 65536 le_rfl
    rw [h.2.2.1]
  · obtain ⟨hk, ho, hc, hm, hfields⟩ := openN_inv 65536 le_rfl
    have hmem : slotKey 0 ∈ (openN 65536).positions.map Prod.fst := by
      have hmm : (openN 65536).positions.map Prod.fst
          = (List.range 65536).reverse.map slotKey := hm
      rw [hmm]
      simp only [List.mem_map, List.mem_reverse, List.mem_range]
      exact ⟨0, by norm_num, rfl⟩
    obtain ⟨p, hp⟩ := exists_lookupPos_of_mem _ _ hmem
    have hpf := hfields (slotKey 0, p) (mem_of_lookupPos _ _ _ hp)
    have hpv : p.vault = (openN 65536).vaultKey := by rw [hpf.2.1, hk]
    simp only [stepClose, ho, if_pos, hp]
    rw [if_pos ⟨hpf.1, hpv⟩]
    show Except.ok ((close_position (openN 65536).vault p).1.position_count) = _
    rw [show (close_position (openN 65536).vault p).1.position_count
      = wsub16 (openN 65536).vault.position_count 1 from rfl, hc]
    decide

end Moluscoyield
